import Mathlib

/-
  Verification of the Helium chemical substructure / fingerprint engine.

  The definitions below are a shallow embedding of the code in
  src/fileio/fingerprints.h, src/fileio/file.h and src/algorithms/smarts.h.
  Machine words (typedef uint64_t Word) are 64 bits wide; word buffers are
  modelled at bit granularity as total functions from bit index to bit value,
  so that word j of a buffer covers bit indices 64*j .. 64*j+63.  Fallible
  constructors are modelled with Except.  Definitions whose source is not in
  the repository snapshot (bitvec.h, isomorphism.h, the body of
  BinaryInputFile::open) are modelled from the specification and say so in
  their doc comments.
-/

namespace Helium

/-- Number of bits in a Helium Word: the inverted fingerprint writer sets
bits_per_word = sizeof(Word) * 8 = 64. -/
def bitsPerWord : Nat := 64

/-- Modelled from the spec: bitvec.h is not under src.  Reads one bit of a
bit-addressed word buffer. -/
def bitvec_get (index : Nat) (bitvec : Nat → Bool) : Bool := bitvec index

/-- Modelled from the spec: bitvec.h is not under src.  Sets one bit of a
bit-addressed word buffer. -/
def bitvec_set (index : Nat) (bitvec : Nat → Bool) : Nat → Bool :=
  fun k => if k = index then true else bitvec k

/-- Modelled from the spec: bitvec.h is not under src; per spec section 4.5 a
row-major fingerprint occupies ceil(bits / wordBits) words. -/
def bitvec_num_words_for_bits (numBits : Nat) : Nat :=
  (numBits + (bitsPerWord - 1)) / bitsPerWord

/-- Embeds struct InvertedFingerprintFileHeader (fingerprints.h lines
370-387): the fixed native header of the inverted fingerprint file. -/
structure InvertedFingerprintFileHeader where
  magic_number : Nat
  bits_per_word : Nat
  bits_per_fingerprint : Nat
  words_per_fingerprint : Nat
  words_per_fpbit : Nat
  num_fingerprints : Nat
deriving Repr, DecidableEq

/-- Embeds InvertedFingerprintFileHeader::get_magic_number, the constant
0x48650001 shared by all Helium binary formats. -/
def get_magic_number : Nat := 0x48650001

/-- Embeds the header setup in the InvertedFingerprintOutputFile constructor
(fingerprints.h lines 392-400), with the formulas exactly as written in the
source; in particular words_per_fpbit is
(numFingerprints + numFingerprints % bits_per_word) / bits_per_word. -/
def mkInvertedHeader (bitsPerFingerprint numFingerprints : Nat) :
    InvertedFingerprintFileHeader :=
  { magic_number := get_magic_number
    bits_per_word := bitsPerWord
    bits_per_fingerprint := bitsPerFingerprint
    words_per_fingerprint := bitsPerFingerprint / bitsPerWord
    words_per_fpbit := (numFingerprints + numFingerprints % bitsPerWord) / bitsPerWord
    num_fingerprints := numFingerprints }

/-- Embeds InvertedFingerprintOutputFile::write (fingerprints.h lines
419-431): for each bit i set in the fingerprint, set bit
i * words_per_fpbit * 64 + m_current of the in-memory bitmap data (the
literal 64 is as written in the source). -/
def invertedWrite (hdr : InvertedFingerprintFileHeader) (fingerprint : Nat → Bool)
    (current : Nat) (data : Nat → Bool) : Nat → Bool :=
  (List.range hdr.bits_per_fingerprint).foldl
    (fun d i =>
      if bitvec_get i fingerprint then
        bitvec_set (i * hdr.words_per_fpbit * 64 + current) d
      else d)
    data

/-- Embeds building an inverted index by calling
InvertedFingerprintOutputFile::write once per fingerprint, in order, starting
from the freshly allocated bitmap data (taken all-zero) and m_current = 0;
m_current is incremented after each write. -/
def invertedBuild (hdr : InvertedFingerprintFileHeader) (fps : List (Nat → Bool)) :
    Nat → Bool :=
  (fps.foldl (fun st fp => (invertedWrite hdr fp st.2 st.1, st.2 + 1))
    ((fun _ => false), 0)).1

/-- Embeds the body of one search-loop iteration for a set query bit i
(fingerprints.h lines 489-498 and 562-571): word j (j < words_per_fpbit) of
the result is copied from (first iteration) or intersected with (later
iterations) word i * words_per_fpbit + j of the bitmap data; at bit
granularity result bit t (t < words_per_fpbit * 64) comes from data bit
i * words_per_fpbit * 64 + t.  Bits outside the copied words keep their
previous value. -/
def invertedSearchStep (hdr : InvertedFingerprintFileHeader) (data : Nat → Bool)
    (i : Nat) (first : Bool) (result : Nat → Bool) : Nat → Bool :=
  fun t =>
    if t < hdr.words_per_fpbit * 64 then
      (if first then data (i * hdr.words_per_fpbit * 64 + t)
       else (result t && data (i * hdr.words_per_fpbit * 64 + t)))
    else result t

/-- Embeds InvertedFingerprintFile::search (fingerprints.h lines 474-500) and
InvertedFingerprintFileCached::search (lines 551-573).  The two readers
perform identical word operations on identical values: the on-demand variant
reads the words at word offset i * words_per_fpbit of the payload from the
file for each set query bit, the cached variant reads the same words from the
payload it loaded at construction time; both skip query bits that are not
set, copy the bitmap of the first set bit into the result buffer and
intersect the result with every later set bit's bitmap. -/
def invertedSearch (hdr : InvertedFingerprintFileHeader) (data fingerprint result : Nat → Bool) :
    Nat → Bool :=
  ((List.range hdr.bits_per_fingerprint).foldl
    (fun st i =>
      if bitvec_get i fingerprint then (false, invertedSearchStep hdr data i st.1 st.2)
      else st)
    (true, result)).2

/-- Embeds RowMajorFingerprintOutputFile::writeFingerprint (fingerprints.h
lines 234-237): appends m_numBytes = bitvec_num_words_for_bits(numBits) words
read from the caller's fingerprint buffer to the payload (the payload is
modelled as the list of words written so far; take truncates a caller buffer
that is longer than one fingerprint, matching the byte count written). -/
def writeFingerprintRM (numBits : Nat) (payload : List Nat) (fingerprint : List Nat) :
    List Nat :=
  payload ++ fingerprint.take (bitvec_num_words_for_bits numBits)

/-- Embeds InMemoryRowMajorFingerprintStorage::fingerprint (fingerprints.h
lines 278-281): the fingerprint with the given index starts at word offset
bitvec_num_words_for_bits(m_numBits) * index of the payload and is one
fingerprint (that many words) long. -/
def storedFingerprintRM (numBits : Nat) (payload : List Nat) (index : Nat) : List Nat :=
  (payload.drop (bitvec_num_words_for_bits numBits * index)).take
    (bitvec_num_words_for_bits numBits)

/-- Error conditions raised by the fingerprint file readers.  couldNotOpen,
invalidMagic and invalidHeader mirror the BinaryInputFile::Error enumerators
of file.h lines 36-55; missingField f mirrors the runtime_error thrown by
InMemoryRowMajorFingerprintStorage::load, whose message names the absent
attribute f (fingerprints.h lines 303-310); notInvertedFile mirrors the
runtime_error thrown by the inverted reader constructors when the native
header magic number does not match (fingerprints.h lines 452-453). -/
inductive FileError where
  | couldNotOpen : FileError
  | invalidMagic : FileError
  | invalidHeader : FileError
  | missingField : String → FileError
  | notInvertedFile : FileError
deriving Repr, DecidableEq

/-- Observable content of a JSON-header binary file: whether the OS can open
it, its 4-byte magic number, whether its JSON header parses, the numeric
fields of the parsed header, and the payload words. -/
structure BinaryFileContent where
  openable : Bool
  magic : Nat
  headerValidJson : Bool
  headerFields : List (String × Nat)
  payload : List Nat

/-- Modelled from the spec: the body of BinaryInputFile::open is not under
src (file.h only declares it).  Per the file.h documentation of open and
Error and spec sections 4.5 and 7, opening fails with couldNotOpen when the
OS open fails, with invalidMagic when the first four bytes differ from the
format constant 0x48650001, and with invalidHeader when the JSON header
cannot be read; on success the parsed header fields are available. -/
def binaryInputFileOpen (f : BinaryFileContent) :
    Except FileError (List (String × Nat)) :=
  if !f.openable then .error .couldNotOpen
  else if f.magic != get_magic_number then .error .invalidMagic
  else if !f.headerValidJson then .error .invalidHeader
  else .ok f.headerFields

/-- Embeds Json::Value::isMember plus asUInt on the parsed header: looks up a
numeric attribute by name. -/
def lookupField (fields : List (String × Nat)) (name : String) : Option Nat :=
  (fields.find? (fun p => p.1 == name)).map Prod.snd

/-- Embeds the loaded InMemoryRowMajorFingerprintStorage: its JSON-derived
attributes and the fingerprint words read from the file. -/
structure InMemoryRowMajorFingerprintStorage where
  m_numBits : Nat
  m_numFingerprints : Nat
  m_fingerprints : List Nat
deriving Repr, DecidableEq

/-- Embeds InMemoryRowMajorFingerprintStorage::load (fingerprints.h lines
284-319): a failed open throws, a JSON parse failure throws, a header without
the num_bits attribute throws an error naming num_bits, a header without the
num_fingerprints attribute throws an error naming num_fingerprints; otherwise
the attributes are read and bitvec_num_words_for_bits(num_bits) *
num_fingerprints words of payload are kept.  Thrown exceptions are modelled
as Except.error. -/
def inMemoryRowMajorLoad (f : BinaryFileContent) :
    Except FileError InMemoryRowMajorFingerprintStorage :=
  match binaryInputFileOpen f with
  | .error e => .error e
  | .ok fields =>
    if (lookupField fields "num_bits").isNone then
      .error (.missingField "num_bits")
    else if (lookupField fields "num_fingerprints").isNone then
      .error (.missingField "num_fingerprints")
    else
      let numBits := (lookupField fields "num_bits").getD 0
      let numFps := (lookupField fields "num_fingerprints").getD 0
      .ok { m_numBits := numBits
            m_numFingerprints := numFps
            m_fingerprints :=
              f.payload.take (bitvec_num_words_for_bits numBits * numFps) }

/-- Observable content of an inverted fingerprint file: whether the OS can
open it, the native header at its start, and the payload bits. -/
structure InvertedFileContent where
  openable : Bool
  header : InvertedFingerprintFileHeader
  payload : Nat → Bool

/-- Embeds the InvertedFingerprintFile and InvertedFingerprintFileCached
constructors (fingerprints.h lines 443-457 and 511-529): a failed open
throws, then the native header is read and its magic number compared against
get_magic_number; a mismatch throws the error stating the file is not an
inverted fingerprint file.  On success the header is available. -/
def invertedFingerprintFileOpen (f : InvertedFileContent) :
    Except FileError InvertedFingerprintFileHeader :=
  if !f.openable then .error .couldNotOpen
  else if f.header.magic_number != get_magic_number then .error .notInvertedFile
  else .ok f.header

/-- Embeds impl::SmartsAtomExpr (smarts.h lines 45-71) as an explicit tagged
sum: one constructor per Smiley atom-expression type handled by
impl::SmartsAtomMatcher::match, carrying the aliased value field where the
source reads it, and the operand subtrees for the combinators.  The recursive
constructor carries the index into the recursive sub-query tables. -/
inductive SmartsAtomExpr where
  | ae_true : SmartsAtomExpr
  | ae_false : SmartsAtomExpr
  | ae_aromatic : SmartsAtomExpr
  | ae_aliphatic : SmartsAtomExpr
  | ae_cyclic : SmartsAtomExpr
  | ae_acyclic : SmartsAtomExpr
  | ae_isotope (value : Int) : SmartsAtomExpr
  | ae_atomicNumber (value : Int) : SmartsAtomExpr
  | ae_aromaticElement (value : Int) : SmartsAtomExpr
  | ae_aliphaticElement (value : Int) : SmartsAtomExpr
  | ae_degree (value : Int) : SmartsAtomExpr
  | ae_valence (value : Int) : SmartsAtomExpr
  | ae_connectivity (value : Int) : SmartsAtomExpr
  | ae_totalH (value : Int) : SmartsAtomExpr
  | ae_implicitH (value : Int) : SmartsAtomExpr
  | ae_ringMembership (value : Int) : SmartsAtomExpr
  | ae_ringSize (value : Int) : SmartsAtomExpr
  | ae_ringConnectivity (value : Int) : SmartsAtomExpr
  | ae_charge (value : Int) : SmartsAtomExpr
  | ae_chirality : SmartsAtomExpr
  | ae_atomClass : SmartsAtomExpr
  | ae_recursive (value : Nat) : SmartsAtomExpr
  | op_not (arg : SmartsAtomExpr) : SmartsAtomExpr
  | op_andHi (left right : SmartsAtomExpr) : SmartsAtomExpr
  | op_andLo (left right : SmartsAtomExpr) : SmartsAtomExpr
  | op_and (left right : SmartsAtomExpr) : SmartsAtomExpr
  | op_or (left right : SmartsAtomExpr) : SmartsAtomExpr
deriving Repr, DecidableEq

/-- Embeds impl::SmartsBondExpr (smarts.h lines 73-96) as an explicit tagged
sum, one constructor per Smiley bond-expression type handled by
impl::SmartsBondMatcher::match. -/
inductive SmartsBondExpr where
  | be_true : SmartsBondExpr
  | be_false : SmartsBondExpr
  | be_single : SmartsBondExpr
  | be_double : SmartsBondExpr
  | be_triple : SmartsBondExpr
  | be_quadriple : SmartsBondExpr
  | be_aromatic : SmartsBondExpr
  | be_up : SmartsBondExpr
  | be_down : SmartsBondExpr
  | be_ring : SmartsBondExpr
  | op_not (arg : SmartsBondExpr) : SmartsBondExpr
  | op_andHi (left right : SmartsBondExpr) : SmartsBondExpr
  | op_andLo (left right : SmartsBondExpr) : SmartsBondExpr
  | op_and (left right : SmartsBondExpr) : SmartsBondExpr
  | op_or (left right : SmartsBondExpr) : SmartsBondExpr
deriving Repr, DecidableEq

/-- Properties of one candidate target atom, as consulted by
impl::SmartsAtomMatcher::match through the external graph traversal and
ring-set capabilities: is_aromatic, get_mass, get_element, get_degree,
get_valence, get_connectivity, the elements of the neighbour atoms (for the
AE_TotalH neighbour loop), num_hydrogens, RingSet::isAtomInRing,
RingSet::numRings, RingSet::isAtomInRingSize, RingSet::numRingBonds and
get_charge. -/
structure TargetAtom where
  is_aromatic : Bool
  mass : Int
  element : Int
  degree : Int
  valence : Int
  connectivity : Int
  nbrElements : List Int
  num_hydrogens : Int
  isAtomInRing : Bool
  numRings : Int
  isAtomInRingSize : Int → Bool
  numRingBonds : Int
  charge : Int

/-- Environment of the recursive (AE_Recursive) case of
impl::SmartsAtomMatcher::match: the number of entries of the recursive
sub-query tables (m_recursiveMols and m_recursiveTrees have equal size), and
the external subgraph-isomorphism search capability as an oracle, giving for
each sub-query index the result of isomorphism_search anchored at the
candidate atom (smarts.h lines 250-259). -/
structure RecursiveEnv where
  numRecursiveMols : Nat
  isomorphismSearch : Nat → Bool

/-- Embeds impl::SmartsAtomMatcher::match (smarts.h lines 193-271).  The
result is Option Bool: some b is a normal return and none is an aborted
evaluation; the only aborting construct is the failed assertion of the
AE_Recursive case when the sub-query index is out of range.  AE_TotalH counts
the neighbours whose element is 1 and adds num_hydrogens.  AE_ImplicitH and
AE_RingConnectivity treat the parameter -1 as at-least-one instead of exact
equality.  AE_Chirality and AE_AtomClass always match.  The AndHi, AndLo and
And cases and the Or case translate the short-circuiting C++ operators: the
right operand is only evaluated when the left operand did not already decide
the result. -/
def SmartsAtomExpr.matchAtom (env : RecursiveEnv) (atom : TargetAtom) :
    SmartsAtomExpr → Option Bool
  | .ae_true => some true
  | .ae_false => some false
  | .ae_aromatic => some atom.is_aromatic
  | .ae_aliphatic => some (!atom.is_aromatic)
  | .ae_cyclic => some atom.isAtomInRing
  | .ae_acyclic => some (!atom.isAtomInRing)
  | .ae_isotope value => some (decide (atom.mass = value))
  | .ae_atomicNumber value => some (decide (atom.element = value))
  | .ae_aromaticElement value => some (decide (atom.element = value) && atom.is_aromatic)
  | .ae_aliphaticElement value => some (decide (atom.element = value) && !atom.is_aromatic)
  | .ae_degree value => some (decide (atom.degree = value))
  | .ae_valence value => some (decide (atom.valence = value))
  | .ae_connectivity value => some (decide (atom.connectivity = value))
  | .ae_totalH value =>
      some (decide ((atom.nbrElements.countP (fun e => e == 1) : Int)
        + atom.num_hydrogens = value))
  | .ae_implicitH value =>
      if value = -1 then some (decide (atom.num_hydrogens ≥ 1))
      else some (decide (atom.num_hydrogens = value))
  | .ae_ringMembership value => some (decide (atom.numRings = value))
  | .ae_ringSize value => some (atom.isAtomInRingSize value)
  | .ae_ringConnectivity value =>
      if value = -1 then some (decide (atom.numRingBonds ≥ 1))
      else some (decide (atom.numRingBonds = value))
  | .ae_charge value => some (decide (atom.charge = value))
  | .ae_chirality => some true
  | .ae_atomClass => some true
  | .ae_recursive value =>
      if value < env.numRecursiveMols then some (env.isomorphismSearch value)
      else none
  | .op_not arg => (matchAtom env atom arg).map (fun b => !b)
  | .op_andHi left right
  | .op_andLo left right
  | .op_and left right => do
      let l ← matchAtom env atom left
      if l then matchAtom env atom right else pure false
  | .op_or left right => do
      let l ← matchAtom env atom left
      if l then pure true else matchAtom env atom right

/-- Properties of one candidate target bond, as consulted by
impl::SmartsBondMatcher::match: get_order, is_aromatic and
RingSet::isBondInRing. -/
structure TargetBond where
  order : Int
  is_aromatic : Bool
  isBondInRing : Bool

/-- Embeds impl::SmartsBondMatcher::match (smarts.h lines 299-332), in the
same abort-aware form as SmartsAtomExpr.matchAtom (no bond leaf aborts, but
the combinators translate the short-circuiting C++ operators the same way).
BE_Up and BE_Down always match. -/
def SmartsBondExpr.matchBond (bond : TargetBond) : SmartsBondExpr → Option Bool
  | .be_true => some true
  | .be_false => some false
  | .be_single => some (decide (bond.order = 1))
  | .be_double => some (decide (bond.order = 2))
  | .be_triple => some (decide (bond.order = 3))
  | .be_quadriple => some (decide (bond.order = 4))
  | .be_aromatic => some bond.is_aromatic
  | .be_up => some true
  | .be_down => some true
  | .be_ring => some bond.isBondInRing
  | .op_not arg => (matchBond bond arg).map (fun b => !b)
  | .op_andHi left right
  | .op_andLo left right
  | .op_and left right => do
      let l ← matchBond bond left
      if l then matchBond bond right else pure false
  | .op_or left right => do
      let l ← matchBond bond left
      if l then pure true else matchBond bond right

/-- Embeds impl::mappings_overlap (smarts.h lines 396-402): true when some
entry of map1 occurs in map2. -/
def mappings_overlap (map1 map2 : List Int) : Bool :=
  map1.any (fun x => map2.contains x)

/-- Embeds the translation loop of impl::enumerate_mappings (smarts.h lines
416-417): map[atomMaps[fragment][j]] = next[j] for each j; the global slots
of the fragment are given by slots, and slots and next have equal length for
well-formed inputs (zip pairs them up). -/
def writeFrag (slots : List Nat) (next : List Int) (map : List Int) : List Int :=
  (slots.zip next).foldl (fun acc p => acc.set p.1 p.2) map

/-- Embeds impl::enumerate_mappings (smarts.h lines 404-429).  The fragments
still to be assigned are given as a list of pairs of the Mapping Set of the
fragment (mappings[fragment].maps) and its global slot table
(atomMaps[fragment]).  For each candidate mapping of the first remaining
fragment, candidates overlapping the current partial global mapping are
skipped; otherwise the candidate entries are translated into the global slots
and either the remaining fragments are enumerated recursively or, after the
last fragment, the completed global mapping is emitted.  The returned list
holds the emitted global mappings in emission order (the caller folds its
result collector over them, which threads add_mapping through the emissions
exactly as the source does). -/
def enumerate_mappings :
    List (List (List Int) × List Nat) → List Int → List (List Int)
  | [], _ => []
  | (maps, slots) :: rest, current =>
      maps.flatMap (fun next =>
        if mappings_overlap current next then []
        else
          match rest with
          | [] => [writeFrag slots next current]
          | _ :: _ => enumerate_mappings rest (writeFrag slots next current))

/-- Modelled from the spec: impl::add_mapping and the collector types live in
isomorphism.h, which is not under src.  Per spec section 4.3 a multi-result
collector records every emitted mapping, in order. -/
def addToMappingList (collector : List (List Int)) (map : List Int) :
    List (List Int) :=
  collector ++ [map]

/-- Modelled from the spec: impl::add_mapping and the collector types live in
isomorphism.h, which is not under src.  Per spec section 4.3 a single-result
collector stops at the first success, so it keeps the first emitted mapping
and ignores the rest. -/
def addToSingleMapping (collector : Option (List Int)) (map : List Int) :
    Option (List Int) :=
  match collector with
  | none => some map
  | some m => some m

/-- State of a compiled Smarts object relevant to Smarts::search: the number
of atoms of each query fragment (num_atoms(m_query[i])) and the
fragment-local-to-global atom index translation tables (m_atomMaps).  Both
lists have one entry per fragment; an object on which init was never called
or failed has no fragments. -/
structure Smarts where
  numAtomsPerFragment : List Nat
  m_atomMaps : List (List Nat)

/-- Embeds the per-fragment collection loop of Smarts::search (smarts.h lines
449-456): fragments are searched in order and all Mapping Sets collected, but
the loop returns false as soon as one fragment's isomorphism search finds no
mapping (isomorphism_search with a MappingList collector reports success
exactly when the fragment's Mapping Set is nonempty). -/
def collectFragmentMappings :
    List (List (List Int)) → Option (List (List (List Int)))
  | [] => some []
  | ms :: rest =>
      if ms.isEmpty then none
      else (collectFragmentMappings rest).map (fun r => ms :: r)

/-- Embeds Smarts::search (smarts.h lines 433-464), parametrised by the
external isomorphism search capability iso (fragment index to Mapping Set;
isomorphism.h is not under src, so per spec section 6 its boolean result is
taken to be whether any mapping was found, with every found mapping handed to
the collector) and by the caller's result collector (initial state and
add_mapping operation).  An empty compiled query returns false at once.  A
single-fragment query delegates to one isomorphism search.  A multi-fragment
query collects every fragment's Mapping Set, failing as soon as one is empty,
and then runs impl::enumerate_mappings from the all-null (-1) global mapping
sized to the total query atom count; the match flag is set exactly when some
global mapping was emitted. -/
def Smarts.search {C : Type} (s : Smarts) (iso : Nat → List (List Int))
    (add : C → List Int → C) (collector : C) : Bool × C :=
  if s.numAtomsPerFragment.isEmpty then (false, collector)
  else if s.numAtomsPerFragment.length = 1 then
    let maps := iso 0
    (!maps.isEmpty, maps.foldl add collector)
  else
    match collectFragmentMappings
        ((List.range s.numAtomsPerFragment.length).map iso) with
    | none => (false, collector)
    | some mappings =>
        let numQueryAtoms := s.numAtomsPerFragment.sum
        let emitted := enumerate_mappings (mappings.zip s.m_atomMaps)
          (List.replicate numQueryAtoms (-1))
        (!emitted.isEmpty, emitted.foldl add collector)

/-- Spec-side definition, for refinement comparison with enumerate_mappings:
all ways of choosing one candidate from each listed Mapping Set, fragments in
original order, the candidate of the first fragment varying slowest. -/
def selections {α : Type} : List (List α) → List (List α)
  | [] => [[]]
  | xs :: rest => xs.flatMap (fun x => (selections rest).map (fun s => x :: s))

/-- Spec-side definition: the candidate mappings m1 and m2 use disjoint sets
of target atoms. -/
def valuesDisjointB (m1 m2 : List Int) : Bool :=
  m1.all (fun v => !m2.contains v)

/-- Spec-side definition: the chosen candidate mappings have pairwise
disjoint target-atom sets. -/
def pairwiseDisjointB : List (List Int) → Bool
  | [] => true
  | m :: rest => rest.all (fun m2 => valuesDisjointB m m2) && pairwiseDisjointB rest

/-- Spec-side definition: translate each chosen candidate mapping into its
fragment's global slots, fragments in order, starting from the given partial
global mapping. -/
def buildGlobal (slotsList : List (List Nat)) (sel : List (List Int))
    (base : List Int) : List Int :=
  (slotsList.zip sel).foldl (fun m p => writeFrag p.1 p.2 m) base

/-- Spec-side definition, following the words of spec section 4.3: the
emitted global mappings are exactly those obtained by choosing one candidate
mapping per fragment, tried in original order, whose target-atom sets are
pairwise disjoint, each choice translated into the global slots of its
fragment. -/
def globalCombinations (frags : List (List (List Int) × List Nat))
    (base : List Int) : List (List Int) :=
  (selections (frags.map Prod.fst)).filterMap (fun sel =>
    if pairwiseDisjointB sel then some (buildGlobal (frags.map Prod.snd) sel base)
    else none)

/-! ## Helper lemmas -/

theorem contains_true_iff {l : List Int} {v : Int} : l.contains v = true ↔ v ∈ l := by
  simp [List.contains]

theorem mappings_overlap_iff {m1 m2 : List Int} :
    mappings_overlap m1 m2 = true ↔ ∃ v, v ∈ m1 ∧ v ∈ m2 := by
  simp [mappings_overlap, List.any_eq_true, contains_true_iff]

theorem collectFragmentMappings_eq_none {L : List (List (List Int))} (h : [] ∈ L) :
    collectFragmentMappings L = none := by
  induction L with
  | nil => cases h
  | cons ms rest ih =>
    rcases List.mem_cons.mp h with hh | ht
    · simp [collectFragmentMappings, ← hh]
    · unfold collectFragmentMappings
      rw [ih ht]
      cases ms.isEmpty <;> simp

theorem foldl_writeFingerprintRM (numBits : Nat) (fps : List (List Nat)) :
    ∀ payload : List Nat,
      fps.foldl (writeFingerprintRM numBits) payload
        = payload
          ++ (fps.map (fun fp => fp.take (bitvec_num_words_for_bits numBits))).flatten := by
  induction fps with
  | nil => intro payload; simp
  | cons fp fps ih =>
    intro payload
    simp only [List.foldl_cons, ih, writeFingerprintRM, List.map_cons, List.flatten_cons,
      List.append_assoc]

theorem flatten_uniform_extract (W : Nat) (fps : List (List Nat))
    (hlen : ∀ fp ∈ fps, fp.length = W) :
    ∀ i, ∀ hi : i < fps.length,
      (fps.flatten.drop (W * i)).take W = fps.get ⟨i, hi⟩ := by
  induction fps with
  | nil => intro i hi; cases hi
  | cons fp fps ih =>
    intro i hi
    cases i with
    | zero =>
      have h0 : fp.length = W := hlen fp (by simp)
      simp only [Nat.mul_zero, List.flatten_cons, List.drop_zero, List.get]
      rw [← h0, List.take_left]
    | succ j =>
      have h0 : fp.length = W := hlen fp (by simp)
      have harith : W * (j + 1) = fp.length + W * j := by rw [h0]; ring
      simp only [List.flatten_cons, harith, List.drop_append, List.get]
      exact ih (fun f hf => hlen f (by simp [hf])) j (Nat.lt_of_succ_lt_succ hi)

/-! ## Claims C2, C4, C5, C6, C7, C8, C9, C10 -/

/-- Claim C2 (code_bug): the spec states that the per-bit-position bitmap
length recorded in the header, words_per_fpbit, equals
ceil(numFingerprints / wordBits), so that the payload for each bit position
holds one bit per stored fingerprint.  The constructor instead computes
(numFingerprints + numFingerprints % bits_per_word) / bits_per_word, which
diverges whenever 0 < numFingerprints % bits_per_word < bits_per_word / 2.
At the four-molecule example documented in fingerprints.h itself the header
records 0 words per bit-position bitmap while the ceiling is 1 word, so the
payload cannot hold one bit per fingerprint. -/
theorem C2_words_per_fpbit_diverges :
    (mkInvertedHeader 8 4).words_per_fpbit = 0 ∧
    ((mkInvertedHeader 8 4).num_fingerprints + ((mkInvertedHeader 8 4).bits_per_word - 1))
        / (mkInvertedHeader 8 4).bits_per_word = 1 ∧
    (mkInvertedHeader 8 4).words_per_fpbit
      ≠ ((mkInvertedHeader 8 4).num_fingerprints + ((mkInvertedHeader 8 4).bits_per_word - 1))
          / (mkInvertedHeader 8 4).bits_per_word := by
  refine ⟨rfl, rfl, ?_⟩
  decide

/-- Claim C10 (confirmed): Smarts::search on a Smarts whose compiled query is
empty (init never called, or it failed, so m_query is empty) returns false
for every target, every isomorphism-search capability and every collector,
without invoking the isomorphism search (the result does not depend on iso)
and without modifying the collector. -/
theorem C10_empty_smarts_search (s : Smarts) (h : s.numAtomsPerFragment = [])
    {C : Type} (iso : Nat → List (List Int)) (add : C → List Int → C) (collector : C) :
    s.search iso add collector = (false, collector) := by
  simp [Smarts.search, h]

/-- Witness for C10 at a concrete empty Smarts, isomorphism oracle and
collector. -/
theorem C10_witness :
    Smarts.search ⟨[], []⟩ (fun _ => [[5]]) addToMappingList [] = (false, []) :=
  C10_empty_smarts_search ⟨[], []⟩ rfl (fun _ => [[5]]) addToMappingList []

/-- Claim C4 (confirmed): for a multi-fragment compiled query, if the
isomorphism search yields an empty Mapping Set for some fragment, then
Smarts::search returns false and the fragment combiner is never entered: the
collector is returned unchanged, so no global mapping is emitted. -/
theorem C4_empty_fragment_mapping_set (s : Smarts) (iso : Nat → List (List Int))
    (hmulti : 2 ≤ s.numAtomsPerFragment.length)
    (f : Nat) (hf : f < s.numAtomsPerFragment.length) (hempty : iso f = [])
    {C : Type} (add : C → List Int → C) (collector : C) :
    s.search iso add collector = (false, collector) := by
  have h0 : s.numAtomsPerFragment.isEmpty = false := by
    cases hl : s.numAtomsPerFragment with
    | nil => rw [hl] at hmulti; simp at hmulti
    | cons a l => simp
  have h1 : s.numAtomsPerFragment.length ≠ 1 := by omega
  have h2 : collectFragmentMappings ((List.range s.numAtomsPerFragment.length).map iso)
      = none := by
    apply collectFragmentMappings_eq_none
    have hmem : iso f ∈ (List.range s.numAtomsPerFragment.length).map iso :=
      List.mem_map_of_mem iso (List.mem_range.mpr hf)
    rw [hempty] at hmem
    exact hmem
  simp [Smarts.search, h0, h1, h2]

/-- Witness for C4: a two-fragment query whose second fragment has an empty
Mapping Set fails with an unchanged collector. -/
theorem C4_witness :
    Smarts.search ⟨[1, 1], [[0], [1]]⟩ (fun f => if f = 0 then [[0]] else [])
      addToMappingList [] = (false, []) :=
  C4_empty_fragment_mapping_set ⟨[1, 1], [[0], [1]]⟩ _ (by decide) 1 (by decide) rfl
    addToMappingList []

/-- Claim C5 (confirmed): in both the atom and the bond expression evaluator,
every AND variant (AndHi, AndLo, And; the three have identical evaluation
semantics) whose left operand evaluates to false returns false without
evaluating the right operand, and an OR whose left operand evaluates to true
returns true without evaluating the right operand; in particular a right
operand whose evaluation would abort is never reached. -/
theorem C5_short_circuit_evaluation (env : RecursiveEnv) (atom : TargetAtom)
    (bond : TargetBond) :
    (∀ left right : SmartsAtomExpr, left.matchAtom env atom = some false →
        (SmartsAtomExpr.op_andHi left right).matchAtom env atom = some false ∧
        (SmartsAtomExpr.op_andLo left right).matchAtom env atom = some false ∧
        (SmartsAtomExpr.op_and left right).matchAtom env atom = some false) ∧
    (∀ left right : SmartsAtomExpr, left.matchAtom env atom = some true →
        (SmartsAtomExpr.op_or left right).matchAtom env atom = some true) ∧
    (∀ left right : SmartsAtomExpr,
        (SmartsAtomExpr.op_andHi left right).matchAtom env atom
          = (SmartsAtomExpr.op_and left right).matchAtom env atom ∧
        (SmartsAtomExpr.op_andLo left right).matchAtom env atom
          = (SmartsAtomExpr.op_and left right).matchAtom env atom) ∧
    (∀ left right : SmartsBondExpr, left.matchBond bond = some false →
        (SmartsBondExpr.op_andHi left right).matchBond bond = some false ∧
        (SmartsBondExpr.op_andLo left right).matchBond bond = some false ∧
        (SmartsBondExpr.op_and left right).matchBond bond = some false) ∧
    (∀ left right : SmartsBondExpr, left.matchBond bond = some true →
        (SmartsBondExpr.op_or left right).matchBond bond = some true) := by
  refine ⟨?_, ?_, ?_, ?_, ?_⟩
  · intro left right h
    refine ⟨?_, ?_, ?_⟩ <;> simp [SmartsAtomExpr.matchAtom, h]
  · intro left right h
    simp [SmartsAtomExpr.matchAtom, h]
  · intro left right
    exact ⟨by simp [SmartsAtomExpr.matchAtom], by simp [SmartsAtomExpr.matchAtom]⟩
  · intro left right h
    refine ⟨?_, ?_, ?_⟩ <;> simp [SmartsBondExpr.matchBond, h]
  · intro left right h
    simp [SmartsBondExpr.matchBond, h]

/-- Witness for C5 at concrete inputs: with no recursive sub-queries, the
leaf recursive 0 aborts when evaluated, yet AND with a false left operand
and OR with a true left operand both complete normally without reaching it. -/
theorem C5_witness :
    ((SmartsAtomExpr.ae_recursive 0).matchAtom ⟨0, fun _ => false⟩
        ⟨false, 0, 6, 0, 0, 0, [], 0, false, 0, fun _ => false, 0, 0⟩ = none) ∧
    ((SmartsAtomExpr.op_and .ae_false (.ae_recursive 0)).matchAtom ⟨0, fun _ => false⟩
        ⟨false, 0, 6, 0, 0, 0, [], 0, false, 0, fun _ => false, 0, 0⟩ = some false) ∧
    ((SmartsAtomExpr.op_or .ae_true (.ae_recursive 0)).matchAtom ⟨0, fun _ => false⟩
        ⟨false, 0, 6, 0, 0, 0, [], 0, false, 0, fun _ => false, 0, 0⟩ = some true) := by
  have h := C5_short_circuit_evaluation ⟨0, fun _ => false⟩
    ⟨false, 0, 6, 0, 0, 0, [], 0, false, 0, fun _ => false, 0, 0⟩ ⟨1, false, false⟩
  refine ⟨rfl, ?_, ?_⟩
  · exact (h.1 .ae_false (.ae_recursive 0) rfl).2.2
  · exact h.2.1 .ae_true (.ae_recursive 0) rfl

/-- Claim C6 (confirmed): an implicit-hydrogen leaf with parameter -1
evaluates true exactly when the atom has at least one implicit hydrogen, a
ring-bond-count leaf with parameter -1 evaluates true exactly when the atom
has at least one ring bond, and for any parameter other than -1 both leaves
test exact equality. -/
theorem C6_unspecified_parameter_defaults (env : RecursiveEnv) (atom : TargetAtom)
    (value : Int) (hv : value ≠ -1) :
    ((SmartsAtomExpr.ae_implicitH (-1)).matchAtom env atom
        = some (decide (atom.num_hydrogens ≥ 1))) ∧
    ((SmartsAtomExpr.ae_implicitH value).matchAtom env atom
        = some (decide (atom.num_hydrogens = value))) ∧
    ((SmartsAtomExpr.ae_ringConnectivity (-1)).matchAtom env atom
        = some (decide (atom.numRingBonds ≥ 1))) ∧
    ((SmartsAtomExpr.ae_ringConnectivity value).matchAtom env atom
        = some (decide (atom.numRingBonds = value))) := by
  refine ⟨?_, ?_, ?_, ?_⟩ <;> simp [SmartsAtomExpr.matchAtom, hv]

/-- Witness for C6 at a concrete atom with two implicit hydrogens and one
ring bond, and concrete parameter 3. -/
theorem C6_witness :
    ((SmartsAtomExpr.ae_implicitH (-1)).matchAtom ⟨0, fun _ => false⟩
        ⟨false, 0, 6, 0, 0, 0, [], 2, false, 0, fun _ => false, 1, 0⟩ = some true) ∧
    ((SmartsAtomExpr.ae_implicitH 3).matchAtom ⟨0, fun _ => false⟩
        ⟨false, 0, 6, 0, 0, 0, [], 2, false, 0, fun _ => false, 1, 0⟩ = some false) ∧
    ((SmartsAtomExpr.ae_ringConnectivity (-1)).matchAtom ⟨0, fun _ => false⟩
        ⟨false, 0, 6, 0, 0, 0, [], 2, false, 0, fun _ => false, 1, 0⟩ = some true) := by
  have h := C6_unspecified_parameter_defaults ⟨0, fun _ => false⟩
    ⟨false, 0, 6, 0, 0, 0, [], 2, false, 0, fun _ => false, 1, 0⟩ 3 (by decide)
  exact ⟨by rw [h.1]; rfl, by rw [h.2.1]; rfl, by rw [h.2.2.1]; rfl⟩

/-- Claim C7 (confirmed, spec-modelled for bitvec_num_words_for_bits):
appending fingerprints in order with
RowMajorFingerprintOutputFile::writeFingerprint and reading position i back
with InMemoryRowMajorFingerprintStorage::fingerprint yields a word-for-word
(hence bit-identical) copy of the i-th fingerprint written, the i-th
fingerprint being located at word offset i * words-per-fingerprint from the
payload base. -/
theorem C7_row_major_round_trip (numBits : Nat) (fps : List (List Nat))
    (hlen : ∀ fp ∈ fps, fp.length = bitvec_num_words_for_bits numBits)
    (i : Nat) (hi : i < fps.length) :
    storedFingerprintRM numBits (fps.foldl (writeFingerprintRM numBits) []) i
      = fps.get ⟨i, hi⟩ := by
  unfold storedFingerprintRM
  rw [foldl_writeFingerprintRM, List.nil_append]
  have hmap : fps.map (fun fp => fp.take (bitvec_num_words_for_bits numBits)) = fps := by
    have hid : ∀ fp ∈ fps, fp.take (bitvec_num_words_for_bits numBits) = fp := by
      intro fp hf
      rw [← hlen fp hf, List.take_length]
    calc fps.map (fun fp => fp.take (bitvec_num_words_for_bits numBits))
        = fps.map id := List.map_congr_left hid
      _ = fps := List.map_id fps
  rw [hmap]
  exact flatten_uniform_extract (bitvec_num_words_for_bits numBits) fps hlen i hi

/-- Witness for C7 with the two 8-bit fingerprints of the spec example
(00101100 and 10001011, i.e. words 52 and 209). -/
theorem C7_witness :
    storedFingerprintRM 8 (([[52], [209]] : List (List Nat)).foldl (writeFingerprintRM 8) []) 0
        = [52] ∧
    storedFingerprintRM 8 (([[52], [209]] : List (List Nat)).foldl (writeFingerprintRM 8) []) 1
        = [209] := by
  have h0 := C7_row_major_round_trip 8 [[52], [209]] (by decide) 0 (by decide)
  have h1 := C7_row_major_round_trip 8 [[52], [209]] (by decide) 1 (by decide)
  exact ⟨h0, h1⟩

/-- Claim C8 (confirmed, spec-modelled for the body of
BinaryInputFile::open): every index reader fails with a distinguishable
error on a magic-number mismatch, the row-major loader fails with a distinct
error naming the missing field when num_bits or num_fingerprints is absent
from the JSON header, the error values are pairwise distinct, and a failing
load never returns a storage object. -/
theorem C8_reader_error_conditions :
    (∀ f : BinaryFileContent, f.openable = true → f.magic ≠ get_magic_number →
        inMemoryRowMajorLoad f = .error .invalidMagic) ∧
    (∀ f : BinaryFileContent, f.openable = true → f.magic = get_magic_number →
        f.headerValidJson = true → lookupField f.headerFields "num_bits" = none →
        inMemoryRowMajorLoad f = .error (.missingField "num_bits")) ∧
    (∀ f : BinaryFileContent, f.openable = true → f.magic = get_magic_number →
        f.headerValidJson = true → (lookupField f.headerFields "num_bits").isSome →
        lookupField f.headerFields "num_fingerprints" = none →
        inMemoryRowMajorLoad f = .error (.missingField "num_fingerprints")) ∧
    (∀ g : InvertedFileContent, g.openable = true →
        g.header.magic_number ≠ get_magic_number →
        invertedFingerprintFileOpen g = .error .notInvertedFile) ∧
    (FileError.invalidMagic ≠ .missingField "num_bits" ∧
      FileError.invalidMagic ≠ .missingField "num_fingerprints" ∧
      FileError.missingField "num_bits" ≠ FileError.missingField "num_fingerprints" ∧
      FileError.invalidMagic ≠ .notInvertedFile) ∧
    (∀ (f : BinaryFileContent) (e : FileError) (st : InMemoryRowMajorFingerprintStorage),
        inMemoryRowMajorLoad f = .error e → inMemoryRowMajorLoad f ≠ .ok st) := by
  refine ⟨?_, ?_, ?_, ?_, ⟨by decide, by decide, by decide, by decide⟩, ?_⟩
  · intro f ho hm
    simp [inMemoryRowMajorLoad, binaryInputFileOpen, ho, hm]
  · intro f ho hm hj hb
    simp [inMemoryRowMajorLoad, binaryInputFileOpen, ho, hm, hj, hb]
  · intro f ho hm hj hb hf
    simp [inMemoryRowMajorLoad, binaryInputFileOpen, ho, hm, hj, hf,
      Option.isNone_iff_eq_none, Option.isSome_iff_ne_none.mp hb]
  · intro g ho hm
    simp [invertedFingerprintFileOpen, ho, hm]
  · intro f e st he
    rw [he]
    exact fun hc => Except.noConfusion hc

/-- Witness for C8 at concrete files: a wrong magic number, a header missing
num_bits, a header missing num_fingerprints, and an inverted file with a
wrong native magic number. -/
theorem C8_witness :
    inMemoryRowMajorLoad ⟨true, 0, true, [], []⟩ = .error .invalidMagic ∧
    inMemoryRowMajorLoad ⟨true, 0x48650001, true, [("num_fingerprints", 4)], []⟩
        = .error (.missingField "num_bits") ∧
    inMemoryRowMajorLoad ⟨true, 0x48650001, true, [("num_bits", 8)], []⟩
        = .error (.missingField "num_fingerprints") ∧
    invertedFingerprintFileOpen ⟨true, ⟨0, 64, 8, 0, 1, 4⟩, fun _ => false⟩
        = .error .notInvertedFile := by
  have h := C8_reader_error_conditions
  refine ⟨h.1 _ rfl (by decide), h.2.1 _ rfl rfl rfl (by decide), ?_, h.2.2.2.1 _ rfl (by decide)⟩
  exact h.2.2.1 _ rfl rfl rfl (by decide) (by decide)

/-- Claim C9 (confirmed): when the query fingerprint has no set bit below
bits_per_fingerprint, the search of the inverted index (either reader
variant; both are embedded by invertedSearch) performs no write at all to
the result buffer: the buffer is returned exactly as it was passed in. -/
theorem C9_empty_query_no_writes (hdr : InvertedFingerprintFileHeader)
    (data q result : Nat → Bool)
    (h : ∀ i, i < hdr.bits_per_fingerprint → q i = false) :
    invertedSearch hdr data q result = result := by
  unfold invertedSearch
  have hs : ∀ (L : List Nat), (∀ i ∈ L, q i = false) → ∀ st : Bool × (Nat → Bool),
      L.foldl (fun st i =>
        if bitvec_get i q then (false, invertedSearchStep hdr data i st.1 st.2) else st)
        st = st := by
    intro L hL
    induction L with
    | nil => intro st; rfl
    | cons a L ih =>
      intro st
      have ha : q a = false := hL a (by simp)
      simp only [List.foldl_cons, bitvec_get, ha, Bool.false_eq_true, if_false]
      exact ih (fun i hi => hL i (by simp [hi])) st
  rw [hs _ (fun i hi => h i (List.mem_range.mp hi))]

/-- Witness for C9: with an all-zero query, a result buffer with exactly bit
3 set is returned untouched. -/
theorem C9_witness :
    invertedSearch (mkInvertedHeader 8 4) (fun _ => false) (fun _ => false)
        (fun k => decide (k = 3))
      = (fun k => decide (k = 3)) :=
  C9_empty_query_no_writes (mkInvertedHeader 8 4) (fun _ => false) (fun _ => false)
    (fun k => decide (k = 3)) (fun _ _ => rfl)

/-! ## Inverted index search: characterization lemmas and claim C1 -/

theorem bitvec_set_spec (idx : Nat) (v : Nat → Bool) (k : Nat) :
    bitvec_set idx v k = true ↔ (k = idx ∨ v k = true) := by
  unfold bitvec_set
  split <;> simp_all

theorem invertedWrite_spec (hdr : InvertedFingerprintFileHeader) (fp : Nat → Bool)
    (cur : Nat) (data : Nat → Bool) (k : Nat) :
    invertedWrite hdr fp cur data k = true ↔
      (data k = true ∨ ∃ i, i < hdr.bits_per_fingerprint ∧ fp i = true ∧
        k = i * hdr.words_per_fpbit * 64 + cur) := by
  unfold invertedWrite
  have haux : ∀ (L : List Nat) (d : Nat → Bool),
      (L.foldl (fun d i =>
        if bitvec_get i fp then bitvec_set (i * hdr.words_per_fpbit * 64 + cur) d else d)
        d) k = true
      ↔ (d k = true ∨ ∃ i ∈ L, fp i = true ∧ k = i * hdr.words_per_fpbit * 64 + cur) := by
    intro L
    induction L with
    | nil => intro d; simp
    | cons a L ih =>
      intro d
      simp only [bitvec_get] at ih ⊢
      simp only [List.foldl_cons]
      rcases Bool.eq_false_or_eq_true (fp a) with hfa | hfa
      · rw [if_pos hfa, ih]
        simp only [List.mem_cons, bitvec_set_spec]
        constructor
        · rintro ((hk | hd) | ⟨i, hi, hfi, hk⟩)
          · exact Or.inr ⟨a, Or.inl rfl, hfa, hk⟩
          · exact Or.inl hd
          · exact Or.inr ⟨i, Or.inr hi, hfi, hk⟩
        · rintro (hd | ⟨i, (rfl | hi), hfi, hk⟩)
          · exact Or.inl (Or.inr hd)
          · exact Or.inl (Or.inl hk)
          · exact Or.inr ⟨i, hi, hfi, hk⟩
      · rw [if_neg (by rw [hfa]; exact Bool.false_ne_true), ih]
        simp only [List.mem_cons]
        constructor
        · rintro (hd | ⟨i, hi, hfi, hk⟩)
          · exact Or.inl hd
          · exact Or.inr ⟨i, Or.inr hi, hfi, hk⟩
        · rintro (hd | ⟨i, (rfl | hi), hfi, hk⟩)
          · exact Or.inl hd
          · rw [hfa] at hfi; cases hfi
          · exact Or.inr ⟨i, hi, hfi, hk⟩
  rw [haux]
  simp [List.mem_range]

theorem invertedBuild_spec (hdr : InvertedFingerprintFileHeader)
    (fps : List (Nat → Bool)) (k : Nat) :
    invertedBuild hdr fps k = true ↔
      ∃ c f, fps[c]? = some f ∧ ∃ i, i < hdr.bits_per_fingerprint ∧ f i = true ∧
        k = i * hdr.words_per_fpbit * 64 + c := by
  have haux : ∀ (fps : List (Nat → Bool)) (data : Nat → Bool) (cur : Nat),
      ((fps.foldl (fun st fp => (invertedWrite hdr fp st.2 st.1, st.2 + 1)) (data, cur)).1 k
        = true)
      ↔ (data k = true ∨ ∃ c f, fps[c]? = some f ∧ ∃ i, i < hdr.bits_per_fingerprint ∧
          f i = true ∧ k = i * hdr.words_per_fpbit * 64 + (cur + c)) := by
    intro fps
    induction fps with
    | nil => intro data cur; simp
    | cons fp fps ih =>
      intro data cur
      simp only [List.foldl_cons, ih, invertedWrite_spec]
      constructor
      · rintro ((hd | ⟨i, hi, hfi, hk⟩) | ⟨c, f, hcf, i, hi, hfi, hk⟩)
        · exact Or.inl hd
        · refine Or.inr ⟨0, fp, by simp, i, hi, hfi, ?_⟩
          rw [hk, Nat.add_zero]
        · refine Or.inr ⟨c + 1, f, by simpa using hcf, i, hi, hfi, ?_⟩
          rw [hk]
          congr 1
          omega
      · rintro (hd | ⟨c, f, hcf, i, hi, hfi, hk⟩)
        · exact Or.inl (Or.inl hd)
        · cases c with
          | zero =>
            simp only [List.getElem?_cons_zero, Option.some.injEq] at hcf
            refine Or.inl (Or.inr ⟨i, hi, ?_, ?_⟩)
            · rw [hcf]; exact hfi
            · rw [hk, Nat.add_zero]
          | succ c =>
            simp only [List.getElem?_cons_succ] at hcf
            refine Or.inr ⟨c, f, hcf, i, hi, hfi, ?_⟩
            rw [hk]
            congr 1
            omega
  unfold invertedBuild
  rw [haux]
  simp

theorem offset_inj (W : Nat) {i c i2 c2 : Nat} (hc : c < W) (hc2 : c2 < W)
    (h : i * W + c = i2 * W + c2) : i = i2 ∧ c = c2 := by
  have hW : 0 < W := Nat.lt_of_le_of_lt (Nat.zero_le c) hc
  have e1 : (i * W + c) / W = i := by
    rw [Nat.mul_comm, Nat.mul_add_div hW, Nat.div_eq_of_lt hc, Nat.add_zero]
  have e2 : (i2 * W + c2) / W = i2 := by
    rw [Nat.mul_comm, Nat.mul_add_div hW, Nat.div_eq_of_lt hc2, Nat.add_zero]
  have hi : i = i2 := by rw [← e1, ← e2, h]
  subst hi
  exact ⟨rfl, by omega⟩

theorem searchFold_from_false (hdr : InvertedFingerprintFileHeader)
    (data q : Nat → Bool) (L : List Nat) :
    ∀ res : Nat → Bool,
      L.foldl (fun st i =>
          if bitvec_get i q then (false, invertedSearchStep hdr data i st.1 st.2) else st)
        (false, res)
      = (false, fun k =>
          if k < hdr.words_per_fpbit * 64 then
            (res k && L.all (fun i => !(q i) || data (i * hdr.words_per_fpbit * 64 + k)))
          else res k) := by
  induction L with
  | nil =>
    intro res
    simp only [List.foldl_nil, List.all_nil, Bool.and_true]
    congr 1
    funext k
    split <;> rfl
  | cons a L ih =>
    intro res
    simp only [bitvec_get] at ih ⊢
    simp only [List.foldl_cons]
    rcases hqa : q a with _ | _
    · rw [if_neg Bool.false_ne_true, ih]
      congr 1
      funext k
      rcases Nat.lt_or_ge k (hdr.words_per_fpbit * 64) with hk | hk
      · simp [hk, List.all_cons, hqa]
      · simp [Nat.not_lt.mpr hk]
    · rw [if_pos rfl, ih]
      congr 1
      funext k
      rcases Nat.lt_or_ge k (hdr.words_per_fpbit * 64) with hk | hk
      · simp [invertedSearchStep, hk, List.all_cons, hqa, Bool.and_assoc]
      · simp [invertedSearchStep, Nat.not_lt.mpr hk]

theorem searchFold_from_true (hdr : InvertedFingerprintFileHeader)
    (data q : Nat → Bool) (L : List Nat) :
    ∀ res : Nat → Bool, (∃ i ∈ L, q i = true) →
      L.foldl (fun st i =>
          if bitvec_get i q then (false, invertedSearchStep hdr data i st.1 st.2) else st)
        (true, res)
      = (false, fun k =>
          if k < hdr.words_per_fpbit * 64 then
            L.all (fun i => !(q i) || data (i * hdr.words_per_fpbit * 64 + k))
          else res k) := by
  induction L with
  | nil =>
    intro res hex
    simp at hex
  | cons a L ih =>
    intro res hex
    simp only [bitvec_get] at ih ⊢
    simp only [List.foldl_cons]
    rcases hqa : q a with _ | _
    · have hex2 : ∃ i ∈ L, q i = true := by
        rcases hex with ⟨i, hi, hqi⟩
        rcases List.mem_cons.mp hi with rfl | hi2
        · rw [hqa] at hqi; cases hqi
        · exact ⟨i, hi2, hqi⟩
      rw [if_neg Bool.false_ne_true, ih res hex2]
      congr 1
      funext k
      rcases Nat.lt_or_ge k (hdr.words_per_fpbit * 64) with hk | hk
      · simp [hk, List.all_cons, hqa]
      · simp [Nat.not_lt.mpr hk]
    · have hff := searchFold_from_false hdr data q L
      simp only [bitvec_get] at hff
      rw [if_pos rfl, hff]
      congr 1
      funext k
      rcases Nat.lt_or_ge k (hdr.words_per_fpbit * 64) with hk | hk
      · simp [invertedSearchStep, hk, List.all_cons, hqa]
      · simp [invertedSearchStep, Nat.not_lt.mpr hk]

/-- Counterexample to claim C1 as stated: build the inverted index from 32
all-ones 8-bit fingerprints (32 is large enough that the words_per_fpbit
header defect of C2 does not interfere: the header records 1 word, enough
for 32 fingerprints).  The all-zero query fingerprint is a subset of every
stored fingerprint, so under the claim bit 0 of the result buffer would have
to be set after search; but the search visits only set query bits, performs
no write, and an all-zero result buffer still reports bit 0 clear. -/
theorem C1_superset_search_counterexample :
    (∀ b, b < 8 → (fun _ => false : Nat → Bool) b = true →
        (List.replicate 32 (fun _ => true : Nat → Bool)).get ⟨0, by simp⟩ b = true) ∧
    invertedSearch (mkInvertedHeader 8 32)
        (invertedBuild (mkInvertedHeader 8 32) (List.replicate 32 (fun _ => true)))
        (fun _ => false) (fun _ => false) 0 = false := by
  constructor
  · intro b hb hfalse
    exact Bool.noConfusion hfalse
  · decide

/-- Claim C1 (corrected): for an inverted index built by
InvertedFingerprintOutputFile from fingerprints fps whose count fits the
recorded bitmap capacity (fps.length ≤ words_per_fpbit * 64, which holds
exactly when fps.length % 64 is zero or at least 32; see C2), and for every
query fingerprint with at least one set bit below the fingerprint width,
searching with either reader variant sets bit c of the result buffer (for
every c < fps.length, whatever the prior contents of the buffer) exactly
when every bit position set in the query is also set in fingerprint c. -/
theorem C1_inverted_index_superset_search (bpf : Nat) (fps : List (Nat → Bool))
    (hcap : fps.length ≤ (mkInvertedHeader bpf fps.length).words_per_fpbit * 64)
    (q result : Nat → Bool) (i0 : Nat) (hi0 : i0 < bpf) (hq : q i0 = true)
    (c : Nat) (hc : c < fps.length) :
    invertedSearch (mkInvertedHeader bpf fps.length)
        (invertedBuild (mkInvertedHeader bpf fps.length) fps) q result c
      = decide (∀ b, b < bpf → q b = true → fps.get ⟨c, hc⟩ b = true) := by
  set hdr := mkInvertedHeader bpf fps.length with hhdr
  set data := invertedBuild hdr fps with hdata
  have hbpf : hdr.bits_per_fingerprint = bpf := rfl
  have hcW : c < hdr.words_per_fpbit * 64 := Nat.lt_of_lt_of_le hc hcap
  have hex : ∃ i ∈ List.range hdr.bits_per_fingerprint, q i = true :=
    ⟨i0, List.mem_range.mpr (hbpf ▸ hi0), hq⟩
  unfold invertedSearch
  rw [searchFold_from_true hdr data q (List.range hdr.bits_per_fingerprint) result hex]
  simp only [hcW, if_true]
  rw [Bool.eq_iff_iff, List.all_eq_true, decide_eq_true_eq]
  have hpoint : ∀ i, i < bpf →
      ((!(q i) || data (i * hdr.words_per_fpbit * 64 + c)) = true
        ↔ (q i = true → fps.get ⟨c, hc⟩ i = true)) := by
    intro i hi
    have hdatabit : data (i * hdr.words_per_fpbit * 64 + c) = true
        ↔ fps.get ⟨c, hc⟩ i = true := by
      rw [hdata, invertedBuild_spec]
      constructor
      · rintro ⟨c2, f, hcf, i2, hi2, hfi2, hk⟩
        have hc2len : c2 < fps.length := by
          rcases List.getElem?_eq_some_iff.mp hcf with ⟨hlt, _⟩
          exact hlt
        have hc2W : c2 < hdr.words_per_fpbit * 64 := Nat.lt_of_lt_of_le hc2len hcap
        have hk2 : i * (hdr.words_per_fpbit * 64) + c
            = i2 * (hdr.words_per_fpbit * 64) + c2 := by
          rw [← Nat.mul_assoc, ← Nat.mul_assoc]
          exact hk
        obtain ⟨rfl, rfl⟩ := offset_inj (hdr.words_per_fpbit * 64) hcW hc2W hk2
        have hget : fps[c]? = some (fps.get ⟨c, hc⟩) := by
          rw [List.getElem?_eq_getElem hc]
          rfl
        rw [hget] at hcf
        cases hcf
        exact hfi2
      · intro hf
        refine ⟨c, fps.get ⟨c, hc⟩, ?_, i, hbpf ▸ hi, hf, rfl⟩
        rw [List.getElem?_eq_getElem hc]
        rfl
    rcases hqi : q i with _ | _
    · simp
    · simpa using hdatabit
  constructor
  · intro hall b hb hqb
    have hmem : b ∈ List.range hdr.bits_per_fingerprint := List.mem_range.mpr (hbpf ▸ hb)
    exact ((hpoint b hb).mp (hall b hmem)) hqb
  · intro himp i hi
    have hib : i < bpf := hbpf ▸ List.mem_range.mp hi
    exact (hpoint i hib).mpr (himp i hib)

/-- Witness for the corrected C1 at a concrete index of 32 fingerprints with
bits 0..3 set, queried for bit 2: bit 0 of the result is reported set. -/
theorem C1_witness :
    invertedSearch (mkInvertedHeader 8 32)
        (invertedBuild (mkInvertedHeader 8 32)
          (List.replicate 32 (fun b => decide (b < 4))))
        (fun b => decide (b = 2)) (fun _ => false) 0 = true := by
  have h := C1_inverted_index_superset_search 8
    (List.replicate 32 (fun b => decide (b < 4)))
    (by simp [mkInvertedHeader, bitsPerWord])
    (fun b => decide (b = 2)) (fun _ => false) 2 (by decide) (by decide)
    0 (by simp)
  simp only [List.length_replicate] at h
  rw [h]
  decide

/-! ## Fragment combiner: characterization lemmas and claim C3 -/

theorem flatMap_congr_mem {α β : Type} {l : List α} {f g : α → List β}
    (h : ∀ a ∈ l, f a = g a) : l.flatMap f = l.flatMap g := by
  induction l with
  | nil => rfl
  | cons a l ih =>
    simp only [List.flatMap_cons, h a (by simp), ih (fun x hx => h x (by simp [hx]))]

theorem filterMap_congr_mem {α β : Type} {l : List α} {f g : α → Option β}
    (h : ∀ a ∈ l, f a = g a) : l.filterMap f = l.filterMap g := by
  induction l with
  | nil => rfl
  | cons a l ih =>
    simp only [List.filterMap_cons, h a (by simp), ih (fun x hx => h x (by simp [hx]))]

theorem foldl_set_length (L : List (Nat × Int)) :
    ∀ m : List Int, (L.foldl (fun acc p => acc.set p.1 p.2) m).length = m.length := by
  induction L with
  | nil => intro m; rfl
  | cons a L ih => intro m; rw [List.foldl_cons, ih, List.length_set]

theorem writeFrag_length (slots : List Nat) (next : List Int) (m : List Int) :
    (writeFrag slots next m).length = m.length :=
  foldl_set_length (slots.zip next) m

theorem foldl_set_untouched (p : Nat) (L : List (Nat × Int)) :
    ∀ m : List Int, (∀ pr ∈ L, pr.1 ≠ p) →
      (L.foldl (fun acc pr => acc.set pr.1 pr.2) m)[p]? = m[p]? := by
  induction L with
  | nil => intro m _; rfl
  | cons a L ih =>
    intro m h
    rw [List.foldl_cons, ih (m.set a.1 a.2) (fun pr hpr => h pr (by simp [hpr])),
      List.getElem?_set_ne (h a (by simp))]

theorem writeFrag_untouched {p : Nat} {slots : List Nat} (next : List Int)
    (m : List Int) (h : p ∉ slots) :
    (writeFrag slots next m)[p]? = m[p]? := by
  apply foldl_set_untouched
  intro pr hpr heq
  exact h (heq ▸ (List.of_mem_zip hpr).1)

theorem mem_set_iff {m : List Int} {s : Nat} {x v : Int}
    (hs : m[s]? = some (-1)) (hv : v ≠ -1) :
    v ∈ m.set s x ↔ (v = x ∨ v ∈ m) := by
  have hslen : s < m.length := by
    rcases List.getElem?_eq_some_iff.mp hs with ⟨h, _⟩
    exact h
  constructor
  · intro hmem
    rcases List.mem_iff_getElem?.mp hmem with ⟨i, hi⟩
    by_cases heq : i = s
    · subst heq
      rw [List.getElem?_set_self hslen] at hi
      exact Or.inl (Option.some.inj hi).symm
    · rw [List.getElem?_set_ne (fun h => heq h.symm)] at hi
      exact Or.inr (List.getElem?_mem hi)
  · rintro (rfl | hmem)
    · exact List.mem_iff_getElem?.mpr ⟨s, List.getElem?_set_self hslen⟩
    · rcases List.mem_iff_getElem?.mp hmem with ⟨i, hi⟩
      have hne : i ≠ s := by
        intro heq
        subst heq
        rw [hs] at hi
        exact hv (Option.some.inj hi).symm
      exact List.mem_iff_getElem?.mpr ⟨i, by rw [List.getElem?_set_ne fun h => hne h.symm]; exact hi⟩

theorem writeFrag_mem {slots : List Nat} :
    ∀ {next : List Int} {m : List Int}, slots.Nodup →
      (∀ p ∈ slots, m[p]? = some (-1)) → next.length = slots.length →
      ∀ {v : Int}, v ≠ -1 → (v ∈ writeFrag slots next m ↔ (v ∈ next ∨ v ∈ m)) := by
  induction slots with
  | nil =>
    intro next m _ _ hlen v hv
    rw [List.length_nil, List.length_eq_zero] at hlen
    subst hlen
    simp [writeFrag]
  | cons s ss ih =>
    intro next m hnd hfresh hlen v hv
    rcases next with _ | ⟨x, xs⟩
    · cases hlen
    · have hcons : writeFrag (s :: ss) (x :: xs) m = writeFrag ss xs (m.set s x) := rfl
      rw [hcons]
      have hnds : s ∉ ss := (List.nodup_cons.mp hnd).1
      have hfresh2 : ∀ p ∈ ss, (m.set s x)[p]? = some (-1) := by
        intro p hp
        rw [List.getElem?_set_ne (fun h => hnds (by rw [h]; exact hp))]
        exact hfresh p (by simp [hp])
      rw [ih (List.nodup_cons.mp hnd).2 hfresh2 (by simpa using hlen) hv,
        mem_set_iff (hfresh s (by simp)) hv]
      simp only [List.mem_cons]
      tauto

theorem writeFrag_getElem {slots : List Nat} :
    ∀ {next : List Int} {m : List Int}, slots.Nodup → (∀ p ∈ slots, p < m.length) →
      ∀ {ki : Nat} (hk : ki < slots.length) (hk2 : ki < next.length),
        (writeFrag slots next m)[slots.get ⟨ki, hk⟩]? = some (next.get ⟨ki, hk2⟩) := by
  induction slots with
  | nil =>
    intro next m _ _ ki hk hk2
    cases hk
  | cons s ss ih =>
    intro next m hnd hlt ki hk hk2
    rcases next with _ | ⟨x, xs⟩
    · cases hk2
    · have hcons : writeFrag (s :: ss) (x :: xs) m = writeFrag ss xs (m.set s x) := rfl
      rw [hcons]
      cases ki with
      | zero =>
        have h1 : (writeFrag ss xs (m.set s x))[s]? = (m.set s x)[s]? :=
          writeFrag_untouched xs (m.set s x) (List.nodup_cons.mp hnd).1
        have h2 : (m.set s x)[s]? = some x := List.getElem?_set_self (hlt s (by simp))
        exact h1.trans h2
      | succ kj =>
        exact ih (List.nodup_cons.mp hnd).2
          (fun p hp => by rw [List.length_set]; exact hlt p (by simp [hp]))
          (Nat.lt_of_succ_lt_succ hk) (Nat.lt_of_succ_lt_succ hk2)

theorem buildGlobal_nil (sel : List (List Int)) (base : List Int) :
    buildGlobal [] sel base = base := rfl

theorem buildGlobal_cons (sl : List Nat) (rest : List (List Nat))
    (c : List Int) (cs : List (List Int)) (base : List Int) :
    buildGlobal (sl :: rest) (c :: cs) base = buildGlobal rest cs (writeFrag sl c base) := rfl

theorem buildGlobal_untouched {p : Nat} {slotsList : List (List Nat)} :
    ∀ {sel : List (List Int)} {base : List Int}, (∀ sl ∈ slotsList, p ∉ sl) →
      (buildGlobal slotsList sel base)[p]? = base[p]? := by
  induction slotsList with
  | nil => intro sel base _; rfl
  | cons sl rest ih =>
    intro sel base h
    rcases sel with _ | ⟨c, cs⟩
    · rfl
    · rw [buildGlobal_cons, ih (fun s hs => h s (by simp [hs])),
        writeFrag_untouched c base (h sl (by simp))]

theorem buildGlobal_getElem {slotsList : List (List Nat)} :
    ∀ {sel : List (List Int)} {base : List Int},
      slotsList.flatten.Nodup →
      (∀ sl ∈ slotsList, ∀ p ∈ sl, base[p]? = some (-1)) →
      ∀ {fIdx : Nat} (hf : fIdx < slotsList.length) (hf2 : fIdx < sel.length)
        {ki : Nat} (hk : ki < (slotsList.get ⟨fIdx, hf⟩).length)
        (hk2 : ki < (sel.get ⟨fIdx, hf2⟩).length),
        (buildGlobal slotsList sel base)[(slotsList.get ⟨fIdx, hf⟩).get ⟨ki, hk⟩]?
          = some ((sel.get ⟨fIdx, hf2⟩).get ⟨ki, hk2⟩) := by
  induction slotsList with
  | nil =>
    intro sel base _ _ fIdx hf
    cases hf
  | cons sl rest ih =>
    intro sel base hnd hfresh fIdx hf hf2 ki hk hk2
    rcases sel with _ | ⟨c, cs⟩
    · cases hf2
    · rw [buildGlobal_cons]
      have hnd2 : (sl ++ rest.flatten).Nodup := by
        rw [List.flatten_cons] at hnd
        exact hnd
      have hndsl : sl.Nodup := hnd2.of_append_left
      have hndrest : rest.flatten.Nodup := hnd2.of_append_right
      have hdisj : sl.Disjoint rest.flatten := List.disjoint_of_nodup_append hnd2
      cases fIdx with
      | zero =>
        have hk3 : ki < sl.length := hk
        have hk4 : ki < c.length := hk2
        have hp : (sl.get ⟨ki, hk3⟩) ∈ sl := sl.get_mem ki hk3
        have hnotin : ∀ sl2 ∈ rest, (sl.get ⟨ki, hk3⟩) ∉ sl2 := by
          intro sl2 hsl2 hmem
          exact hdisj hp (List.mem_flatten.mpr ⟨sl2, hsl2, hmem⟩)
        have h1 : (buildGlobal rest cs (writeFrag sl c base))[sl.get ⟨ki, hk3⟩]?
            = (writeFrag sl c base)[sl.get ⟨ki, hk3⟩]? := buildGlobal_untouched hnotin
        have h2 : (writeFrag sl c base)[sl.get ⟨ki, hk3⟩]? = some (c.get ⟨ki, hk4⟩) :=
          writeFrag_getElem hndsl
            (fun p hpp => by
              rcases List.getElem?_eq_some_iff.mp (hfresh sl (by simp) p hpp) with ⟨hl, _⟩
              exact hl)
            hk3 hk4
        exact h1.trans h2
      | succ fj =>
        have hfresh2 : ∀ sl2 ∈ rest, ∀ p ∈ sl2,
            (writeFrag sl c base)[p]? = some (-1) := by
          intro sl2 hsl2 p hp
          have hpnotsl : p ∉ sl := by
            intro hmem
            exact hdisj hmem (List.mem_flatten.mpr ⟨sl2, hsl2, hp⟩)
          rw [writeFrag_untouched c base hpnotsl]
          exact hfresh sl2 (by simp [hsl2]) p hp
        exact ih hndrest hfresh2 (Nat.lt_of_succ_lt_succ hf) (Nat.lt_of_succ_lt_succ hf2)
          hk hk2

theorem selections_mem {α : Type} {L : List (List α)} :
    ∀ {sel : List α}, sel ∈ selections L → List.Forall₂ (fun x xs => x ∈ xs) sel L := by
  induction L with
  | nil =>
    intro sel h
    simp only [selections, List.mem_singleton] at h
    subst h
    exact List.Forall₂.nil
  | cons xs rest ih =>
    intro sel h
    simp only [selections, List.mem_flatMap, List.mem_map] at h
    rcases h with ⟨x, hx, s, hs, rfl⟩
    exact List.Forall₂.cons hx (ih hs)

theorem forall₂_mem_of_mem {α β : Type} {R : α → β → Prop} :
    ∀ {l1 : List α} {l2 : List β}, List.Forall₂ R l1 l2 →
      ∀ {x : α}, x ∈ l1 → ∃ y ∈ l2, R x y := by
  intro l1 l2 h
  induction h with
  | nil => intro x hx; cases hx
  | cons hr _ ih =>
    intro x hx
    rcases List.mem_cons.mp hx with rfl | hx2
    · exact ⟨_, by simp, hr⟩
    · rcases ih hx2 with ⟨y, hy, hxy⟩
      exact ⟨y, by simp [hy], hxy⟩

theorem valuesDisjointB_iff {m1 m2 : List Int} :
    valuesDisjointB m1 m2 = true ↔ ∀ v ∈ m1, v ∉ m2 := by
  simp [valuesDisjointB, List.all_eq_true, contains_true_iff]

theorem pairwiseDisjointB_iff {sel : List (List Int)} :
    pairwiseDisjointB sel = true ↔
      List.Pairwise (fun m1 m2 => ∀ v ∈ m1, v ∉ m2) sel := by
  induction sel with
  | nil => simp [pairwiseDisjointB]
  | cons m rest ih =>
    simp [pairwiseDisjointB, List.all_eq_true, valuesDisjointB_iff, List.pairwise_cons, ih,
      and_comm]

theorem mappings_overlap_replicate {N : Nat} {m2 : List Int}
    (hval : ∀ v ∈ m2, 0 ≤ v) :
    mappings_overlap (List.replicate N (-1)) m2 = false := by
  rw [Bool.eq_false_iff]
  intro hov
  rcases mappings_overlap_iff.mp hov with ⟨v, hv1, hv2⟩
  have : v = -1 := (List.mem_replicate.mp hv1).2
  have : (0 : Int) ≤ -1 := this ▸ hval v hv2
  omega

theorem mappings_overlap_writeFrag {slots : List Nat} {next m : List Int}
    (hnd : slots.Nodup) (hfresh : ∀ p ∈ slots, m[p]? = some (-1))
    (hlen : next.length = slots.length)
    {m2 : List Int} (hval : ∀ v ∈ m2, 0 ≤ v) :
    (mappings_overlap (writeFrag slots next m) m2 = true ↔
      (mappings_overlap m m2 = true ∨ ∃ v ∈ next, v ∈ m2)) := by
  rw [mappings_overlap_iff, mappings_overlap_iff]
  constructor
  · rintro ⟨v, hv1, hv2⟩
    have hvne : v ≠ -1 := by
      have := hval v hv2
      omega
    rcases (writeFrag_mem hnd hfresh hlen hvne).mp hv1 with hn | hm
    · exact Or.inr ⟨v, hn, hv2⟩
    · exact Or.inl ⟨v, hm, hv2⟩
  · rintro (⟨v, hv1, hv2⟩ | ⟨v, hv1, hv2⟩)
    · have hvne : v ≠ -1 := by
        have := hval v hv2
        omega
      exact ⟨v, (writeFrag_mem hnd hfresh hlen hvne).mpr (Or.inr hv1), hv2⟩
    · have hvne : v ≠ -1 := by
        have := hval v hv2
        omega
      exact ⟨v, (writeFrag_mem hnd hfresh hlen hvne).mpr (Or.inl hv1), hv2⟩

theorem enumerate_mappings_cons (maps : List (List Int)) (slots : List Nat)
    (rest : List (List (List Int) × List Nat)) (current : List Int) :
    enumerate_mappings ((maps, slots) :: rest) current
      = maps.flatMap (fun next =>
          if mappings_overlap current next then []
          else
            match rest with
            | [] => [writeFrag slots next current]
            | _ :: _ => enumerate_mappings rest (writeFrag slots next current)) := rfl

theorem selections_cons {α : Type} (xs : List α) (L : List (List α)) :
    selections (xs :: L) = xs.flatMap (fun x => (selections L).map (fun s => x :: s)) := rfl

theorem pairwiseDisjointB_cons (m : List Int) (rest : List (List Int)) :
    pairwiseDisjointB (m :: rest)
      = (rest.all (fun m2 => valuesDisjointB m m2) && pairwiseDisjointB rest) := rfl

theorem enumerate_eq_combinations_from :
    ∀ (frags : List (List (List Int) × List Nat)) (current : List Int),
      frags ≠ [] →
      ((frags.map Prod.snd).flatten).Nodup →
      (∀ sl ∈ frags.map Prod.snd, ∀ p ∈ sl, current[p]? = some (-1)) →
      (∀ fr ∈ frags, ∀ m ∈ fr.1, m.length = fr.2.length) →
      (∀ fr ∈ frags, ∀ m ∈ fr.1, ∀ v ∈ m, 0 ≤ v) →
      enumerate_mappings frags current
        = (selections (frags.map Prod.fst)).filterMap (fun sel =>
            if sel.all (fun m => !mappings_overlap current m) && pairwiseDisjointB sel then
              some (buildGlobal (frags.map Prod.snd) sel current)
            else none) := by
  intro frags
  induction frags with
  | nil => intro current hne _ _ _ _; exact absurd rfl hne
  | cons head rest ih =>
    obtain ⟨maps, slots⟩ := head
    intro current _ hnd hfresh hlen hval
    have hnd2 : (slots ++ (rest.map Prod.snd).flatten).Nodup := by
      have h := hnd
      rw [List.map_cons, List.flatten_cons] at h
      exact h
    have hndslots : slots.Nodup := hnd2.of_append_left
    have hndrest : ((rest.map Prod.snd).flatten).Nodup := hnd2.of_append_right
    have hdisj : slots.Disjoint ((rest.map Prod.snd).flatten) :=
      List.disjoint_of_nodup_append hnd2
    have hfreshslots : ∀ p ∈ slots, current[p]? = some (-1) := by
      intro p hp
      exact hfresh slots (by simp) p hp
    rcases rest with _ | ⟨r, rs⟩
    · -- single remaining fragment: the candidate is emitted directly
      rw [enumerate_mappings_cons]
      simp only [List.map_cons, List.map_nil]
      rw [selections_cons]
      rw [List.filterMap_flatMap]
      apply flatMap_congr_mem
      intro next hnext
      simp only [selections, List.map_cons, List.map_nil, List.filterMap_cons,
        List.filterMap_nil]
      rcases Bool.eq_false_or_eq_true (mappings_overlap current next) with hov | hov
      · simp [hov, List.all_cons, pairwiseDisjointB_cons, pairwiseDisjointB]
      · simp [hov, List.all_cons, pairwiseDisjointB_cons, pairwiseDisjointB,
          buildGlobal, writeFrag]
    · -- at least two remaining fragments: recurse and compare conditions
      rw [enumerate_mappings_cons]
      simp only [List.map_cons]
      rw [selections_cons]
      rw [List.filterMap_flatMap]
      simp only [List.filterMap_map, Function.comp]
      apply flatMap_congr_mem
      intro next hnext
      have hlennext : next.length = slots.length := hlen (maps, slots) (by simp) next hnext
      rcases Bool.eq_false_or_eq_true (mappings_overlap current next) with hov | hov
      · rw [if_pos hov]
        symm
        rw [List.filterMap_eq_nil_iff]
        intro sel hsel
        simp [List.all_cons, hov]
      · rw [if_neg (by rw [hov]; exact Bool.false_ne_true)]
        have hfresh2 : ∀ sl ∈ (r :: rs).map Prod.snd, ∀ p ∈ sl,
            (writeFrag slots next current)[p]? = some (-1) := by
          intro sl hsl p hp
          have hpnot : p ∉ slots := by
            intro hmem
            exact hdisj hmem (List.mem_flatten.mpr ⟨sl, hsl, hp⟩)
          rw [writeFrag_untouched next current hpnot]
          exact hfresh sl (by rw [List.map_cons]; exact List.mem_cons_of_mem _ hsl) p hp
        rw [ih (writeFrag slots next current) (by simp) hndrest hfresh2
          (fun fr hfr => hlen fr (by simp [hfr]))
          (fun fr hfr => hval fr (by simp [hfr]))]
        apply filterMap_congr_mem
        intro sel hsel
        have hselmem := selections_mem hsel
        have hmnn : ∀ m ∈ sel, ∀ v ∈ m, 0 ≤ v := by
          intro m hm
          rcases forall₂_mem_of_mem hselmem hm with ⟨ms, hms, hmms⟩
          rcases List.mem_map.mp hms with ⟨fr, hfr, rfl⟩
          exact hval fr (by simp [hfr]) m hmms
        have hkey : ∀ m ∈ sel,
            (mappings_overlap (writeFrag slots next current) m = false ↔
              (mappings_overlap current m = false ∧ valuesDisjointB next m = true)) := by
          intro m hm
          have hO2 := mappings_overlap_writeFrag hndslots hfreshslots hlennext (hmnn m hm)
          constructor
          · intro hfalse
            rw [Bool.eq_false_iff] at hfalse
            constructor
            · rw [Bool.eq_false_iff]
              intro htrue
              exact hfalse (hO2.mpr (Or.inl htrue))
            · rw [valuesDisjointB_iff]
              intro v hv hvm
              exact hfalse (hO2.mpr (Or.inr ⟨v, hv, hvm⟩))
          · rintro ⟨h1, h2⟩
            rw [Bool.eq_false_iff]
            intro htrue
            rcases hO2.mp htrue with hcur | ⟨v, hv, hvm⟩
            · rw [Bool.eq_false_iff] at h1
              exact h1 hcur
            · exact (valuesDisjointB_iff.mp h2 v hv) hvm
        have hcond : ((next :: sel).all (fun m => !mappings_overlap current m)
              && pairwiseDisjointB (next :: sel))
            = (sel.all (fun m => !mappings_overlap (writeFrag slots next current) m)
              && pairwiseDisjointB sel) := by
          rw [Bool.eq_iff_iff]
          simp only [Bool.and_eq_true, List.all_cons, List.all_eq_true,
            pairwiseDisjointB_cons, Bool.not_eq_true']
          constructor
          · rintro ⟨⟨_, hA⟩, hD, hP⟩
            exact ⟨fun m hm => (hkey m hm).mpr ⟨hA m hm, hD m hm⟩, hP⟩
          · rintro ⟨hA2, hP⟩
            refine ⟨⟨hov, fun m hm => ((hkey m hm).mp (hA2 m hm)).1⟩,
              fun m hm => ((hkey m hm).mp (hA2 m hm)).2, hP⟩
        rw [← hcond]
        simp only [Function.comp_apply]
        have hbg : buildGlobal (slots :: r.2 :: List.map Prod.snd rs) (next :: sel) current
            = buildGlobal (List.map Prod.snd (r :: rs)) sel (writeFrag slots next current) := rfl
        rw [hbg]

theorem buildGlobal_getElem_opt {slotsList : List (List Nat)} {sel : List (List Int)}
    {base : List Int}
    (hnd : slotsList.flatten.Nodup)
    (hfresh : ∀ sl ∈ slotsList, ∀ p ∈ sl, base[p]? = some (-1))
    {fIdx ki : Nat} {sl : List Nat} {cand : List Int} {p : Nat} {v : Int}
    (hsl : slotsList[fIdx]? = some sl) (hc : sel[fIdx]? = some cand)
    (hp : sl[ki]? = some p) (hv : cand[ki]? = some v) :
    (buildGlobal slotsList sel base)[p]? = some v := by
  have hf : fIdx < slotsList.length := (List.getElem?_eq_some_iff.mp hsl).1
  have hf2 : fIdx < sel.length := (List.getElem?_eq_some_iff.mp hc).1
  have hsl2 : sl = slotsList.get ⟨fIdx, hf⟩ := by
    rw [List.getElem?_eq_getElem hf] at hsl
    exact (Option.some.inj hsl).symm
  subst hsl2
  have hc2 : cand = sel.get ⟨fIdx, hf2⟩ := by
    rw [List.getElem?_eq_getElem hf2] at hc
    exact (Option.some.inj hc).symm
  subst hc2
  have hk : ki < (slotsList.get ⟨fIdx, hf⟩).length := (List.getElem?_eq_some_iff.mp hp).1
  have hk2 : ki < (sel.get ⟨fIdx, hf2⟩).length := (List.getElem?_eq_some_iff.mp hv).1
  have hp2 : p = (slotsList.get ⟨fIdx, hf⟩).get ⟨ki, hk⟩ := by
    rw [List.getElem?_eq_getElem hk] at hp
    exact (Option.some.inj hp).symm
  subst hp2
  have hv2 : v = (sel.get ⟨fIdx, hf2⟩).get ⟨ki, hk2⟩ := by
    rw [List.getElem?_eq_getElem hk2] at hv
    exact (Option.some.inj hv).symm
  subst hv2
  exact buildGlobal_getElem hnd hfresh hf hf2 hk hk2

theorem foldl_addToSingleMapping (l : List (List Int)) :
    l.foldl addToSingleMapping none = l.head? := by
  cases l with
  | nil => rfl
  | cons a l =>
    have haux : ∀ (l2 : List (List Int)) (m0 : List Int),
        l2.foldl addToSingleMapping (some m0) = some m0 := by
      intro l2
      induction l2 with
      | nil => intro m0; rfl
      | cons b l2 ih => intro m0; exact ih m0
    simp only [List.foldl_cons, addToSingleMapping, List.head?_cons]
    exact haux l a

/-- Claim C3 (confirmed): for every multi-fragment compiled query, under the
data-model invariants (the global slot tables of the fragments partition
distinct slots below the total query atom count, every candidate mapping has
one entry per fragment atom, and candidate entries are target atom indices,
hence nonnegative), the fragment combiner emits exactly the globally
consistent combinations: the emitted list equals, in original try order, the
choices of one candidate mapping per fragment with pairwise disjoint
target-atom sets, translated into the global slots; no emitted global
mapping assigns query atoms of two different fragments to the same target
atom; and a single-result collector folded over the emissions keeps exactly
the first success. -/
theorem C3_fragment_combiner_exact (frags : List (List (List Int) × List Nat)) (N : Nat)
    (hne : frags ≠ [])
    (hnd : ((frags.map Prod.snd).flatten).Nodup)
    (hlt : ∀ sl ∈ frags.map Prod.snd, ∀ p ∈ sl, p < N)
    (hlen : ∀ fr ∈ frags, ∀ m ∈ fr.1, m.length = fr.2.length)
    (hval : ∀ fr ∈ frags, ∀ m ∈ fr.1, ∀ v ∈ m, 0 ≤ v) :
    enumerate_mappings frags (List.replicate N (-1))
        = globalCombinations frags (List.replicate N (-1)) ∧
    (∀ m ∈ enumerate_mappings frags (List.replicate N (-1)),
      ∀ (fi fj : Nat) (fri frj : List (List Int) × List Nat), fi ≠ fj →
        frags[fi]? = some fri → frags[fj]? = some frj →
        ∀ (ki kj p q : Nat), fri.2[ki]? = some p → frj.2[kj]? = some q →
          m[p]? ≠ m[q]?) ∧
    ((enumerate_mappings frags (List.replicate N (-1))).foldl addToSingleMapping none
        = (enumerate_mappings frags (List.replicate N (-1))).head?) := by
  have hfresh : ∀ sl ∈ frags.map Prod.snd, ∀ p ∈ sl,
      (List.replicate N (-1) : List Int)[p]? = some (-1) := by
    intro sl hsl p hp
    simp [List.getElem?_replicate, hlt sl hsl p hp]
  have hmain := enumerate_eq_combinations_from frags (List.replicate N (-1)) hne hnd
    hfresh hlen hval
  have h1 : enumerate_mappings frags (List.replicate N (-1))
      = globalCombinations frags (List.replicate N (-1)) := by
    rw [hmain]
    unfold globalCombinations
    apply filterMap_congr_mem
    intro sel hsel
    have hselmem := selections_mem hsel
    have hall : sel.all (fun m => !mappings_overlap (List.replicate N (-1)) m) = true := by
      rw [List.all_eq_true]
      intro m hm
      have hmnn : ∀ v ∈ m, 0 ≤ v := by
        rcases forall₂_mem_of_mem hselmem hm with ⟨ms, hms, hmms⟩
        rcases List.mem_map.mp hms with ⟨fr, hfr, rfl⟩
        exact hval fr hfr m hmms
      rw [mappings_overlap_replicate hmnn]
      rfl
    rw [hall, Bool.true_and]
  refine ⟨h1, ?_, foldl_addToSingleMapping _⟩
  intro m hm fi fj fri frj hne2 hfi hfj ki kj p q hp hq
  rw [h1] at hm
  unfold globalCombinations at hm
  rcases List.mem_filterMap.mp hm with ⟨sel, hselmem0, hcond⟩
  rcases Bool.eq_false_or_eq_true (pairwiseDisjointB sel) with hpw | hpw
  · rw [if_pos hpw] at hcond
    have hmEq : m = buildGlobal (frags.map Prod.snd) sel (List.replicate N (-1)) :=
      (Option.some.inj hcond).symm
    subst hmEq
    have hF2 := selections_mem hselmem0
    have hlensel : sel.length = frags.length := by
      have := hF2.length_eq
      simpa using this
    have hfil : fi < frags.length := (List.getElem?_eq_some_iff.mp hfi).1
    have hfjl : fj < frags.length := (List.getElem?_eq_some_iff.mp hfj).1
    have hfisel : fi < sel.length := by rw [hlensel]; exact hfil
    have hfjsel : fj < sel.length := by rw [hlensel]; exact hfjl
    rw [List.forall₂_iff_get] at hF2
    obtain ⟨hlen0, hcomp⟩ := hF2
    have hfimap : fi < (frags.map Prod.fst).length := by simpa using hfil
    have hfjmap : fj < (frags.map Prod.fst).length := by simpa using hfjl
    have hmemci : sel.get ⟨fi, hfisel⟩ ∈ (frags.map Prod.fst).get ⟨fi, hfimap⟩ :=
      hcomp fi hfisel hfimap
    have hmemcj : sel.get ⟨fj, hfjsel⟩ ∈ (frags.map Prod.fst).get ⟨fj, hfjmap⟩ :=
      hcomp fj hfjsel hfjmap
    have hfsti : (frags.map Prod.fst).get ⟨fi, hfimap⟩ = fri.1 := by
      have hmap : (frags.map Prod.fst)[fi]? = some fri.1 := by
        rw [List.getElem?_map, hfi]
        rfl
      rw [List.getElem?_eq_getElem hfimap] at hmap
      exact Option.some.inj hmap
    have hfstj : (frags.map Prod.fst).get ⟨fj, hfjmap⟩ = frj.1 := by
      have hmap : (frags.map Prod.fst)[fj]? = some frj.1 := by
        rw [List.getElem?_map, hfj]
        rfl
      rw [List.getElem?_eq_getElem hfjmap] at hmap
      exact Option.some.inj hmap
    rw [hfsti] at hmemci
    rw [hfstj] at hmemcj
    have hfrimem : fri ∈ frags := List.getElem?_mem hfi
    have hfrjmem : frj ∈ frags := List.getElem?_mem hfj
    have hkip : ki < fri.2.length := (List.getElem?_eq_some_iff.mp hp).1
    have hkjq : kj < frj.2.length := (List.getElem?_eq_some_iff.mp hq).1
    have hkici : ki < (sel.get ⟨fi, hfisel⟩).length := by
      rw [hlen fri hfrimem (sel.get ⟨fi, hfisel⟩) hmemci]
      exact hkip
    have hkjcj : kj < (sel.get ⟨fj, hfjsel⟩).length := by
      rw [hlen frj hfrjmem (sel.get ⟨fj, hfjsel⟩) hmemcj]
      exact hkjq
    have hci : sel[fi]? = some (sel.get ⟨fi, hfisel⟩) := List.getElem?_eq_getElem hfisel
    have hcj : sel[fj]? = some (sel.get ⟨fj, hfjsel⟩) := List.getElem?_eq_getElem hfjsel
    have hvi : (sel.get ⟨fi, hfisel⟩)[ki]? = some ((sel.get ⟨fi, hfisel⟩).get ⟨ki, hkici⟩) :=
      List.getElem?_eq_getElem hkici
    have hvj : (sel.get ⟨fj, hfjsel⟩)[kj]? = some ((sel.get ⟨fj, hfjsel⟩).get ⟨kj, hkjcj⟩) :=
      List.getElem?_eq_getElem hkjcj
    have hsli : (frags.map Prod.snd)[fi]? = some fri.2 := by
      rw [List.getElem?_map, hfi]
      rfl
    have hslj : (frags.map Prod.snd)[fj]? = some frj.2 := by
      rw [List.getElem?_map, hfj]
      rfl
    have hmp := buildGlobal_getElem_opt hnd hfresh hsli hci hp hvi
    have hmq := buildGlobal_getElem_opt hnd hfresh hslj hcj hq hvj
    rw [hmp, hmq]
    intro heq
    have hveq := Option.some.inj heq
    have hPW := pairwiseDisjointB_iff.mp hpw
    have hvimem : (sel.get ⟨fi, hfisel⟩).get ⟨ki, hkici⟩ ∈ sel.get ⟨fi, hfisel⟩ :=
      (sel.get ⟨fi, hfisel⟩).get_mem ki hkici
    have hvjmem : (sel.get ⟨fj, hfjsel⟩).get ⟨kj, hkjcj⟩ ∈ sel.get ⟨fj, hfjsel⟩ :=
      (sel.get ⟨fj, hfjsel⟩).get_mem kj hkjcj
    rcases Nat.lt_or_ge fi fj with hij | hij
    · have hdisj2 := List.pairwise_iff_get.mp hPW ⟨fi, hfisel⟩ ⟨fj, hfjsel⟩ hij
      exact hdisj2 _ hvimem (by rw [hveq]; exact hvjmem)
    · have hji : fj < fi := by omega
      have hdisj2 := List.pairwise_iff_get.mp hPW ⟨fj, hfjsel⟩ ⟨fi, hfisel⟩ hji
      exact hdisj2 _ hvjmem (by rw [← hveq]; exact hvimem)
  · rw [if_neg (by rw [hpw]; exact Bool.false_ne_true)] at hcond
    exact Option.noConfusion hcond

/-- Witness for C3 at the two-fragment query of the spec example (one carbon
fragment, one oxygen fragment, against a two-atom target): the emitted
combinations equal the spec-side global combinations. -/
theorem C3_witness :
    enumerate_mappings [([[0], [1]], [0]), ([[1]], [1])] (List.replicate 2 (-1))
      = globalCombinations [([[0], [1]], [0]), ([[1]], [1])] (List.replicate 2 (-1)) :=
  (C3_fragment_combiner_exact [([[0], [1]], [0]), ([[1]], [1])] 2 (by decide) (by decide)
    (by decide) (by decide) (by decide)).1

end Helium
